import Mathlib

/-!
Verification of `app/message_processor.py` (process-document-app).

Python strings are modelled as `List Char` (a Python `str` is a sequence of
code points).  The pipeline functions of the source file are embedded as pure
Lean functions; the external collaborators (file system, PDF parser, the LLM
client `ask_llm`, and the SQLAlchemy session) are modelled as explicit
parameters, with their semantics taken from the specification where their
code is not part of the repository.
-/

set_option autoImplicit false
set_option maxRecDepth 100000

namespace MessageProcessor

/-- A Python string, modelled as its sequence of characters. -/
abbrev Str := List Char

/-- Whitespace as used by Python's `str.split()` / `str.strip()` (ASCII range). -/
def isSpace (c : Char) : Bool :=
  c == ' ' || c == '\t' || c == '\n' || c == '\r' || c == '\x0b' || c == '\x0c'

/-- Worker for `pySplit`: `acc` holds the characters of the word currently
being scanned, in reverse order. -/
def splitAux : Str → Str → List Str
  | [], acc =>
    match acc with
    | [] => []
    | _ :: _ => [acc.reverse]
  | c :: cs, acc =>
    if isSpace c then
      match acc with
      | [] => splitAux cs []
      | _ :: _ => acc.reverse :: splitAux cs []
    else splitAux cs (c :: acc)

/-- Python's `content.split()`: split on runs of whitespace, dropping empty
tokens. -/
def pySplit (s : Str) : List Str := splitAux s []

/-- Python's `" ".join(words)`. -/
def joinSp : List Str → Str
  | [] => []
  | [w] => w
  | w :: ws => w ++ ' ' :: joinSp ws

/-- Python's `s.strip()`: remove leading and trailing whitespace. -/
def pyStrip (s : Str) : Str :=
  ((s.dropWhile isSpace).reverse.dropWhile isSpace).reverse

/-- Python's `word.endswith('.')`. -/
def endsWithDot (w : Str) : Bool := w.getLast? == some '.'

/-- The `MIN_WORDS` constant of `chunk_content` (line 93 of the source). -/
def MIN_WORDS : Nat := 100

/-- The `for word in content.split()` loop of `chunk_content` (lines 97-106):
`cur` is `current_chunk`, `wc` is `word_count`; a chunk is sealed as
`" ".join(current_chunk).strip()` whenever the just-appended word ends in `.`
and the incremented count reaches `MIN_WORDS`; a non-empty leftover buffer is
flushed after the loop. -/
def chunkLoop : List Str → List Str → Nat → List Str
  | [], cur, _ =>
    if cur.isEmpty then [] else [pyStrip (joinSp cur)]
  | w :: ws, cur, wc =>
    if endsWithDot w = true ∧ MIN_WORDS ≤ wc + 1 then
      pyStrip (joinSp (cur ++ [w])) :: chunkLoop ws [] 0
    else chunkLoop ws (cur ++ [w]) (wc + 1)

/-- `chunk_content` (lines 87-108 of the source). -/
def chunk_content (content : Str) : List Str :=
  chunkLoop (pySplit content) [] 0

/-- Token-level image of `chunkLoop`: the same loop, but each chunk is kept
as its list of words instead of being rejoined into a string.  Proof
infrastructure only. -/
def chunkTokens : List Str → List Str → Nat → List (List Str)
  | [], cur, _ =>
    if cur.isEmpty then [] else [cur]
  | w :: ws, cur, wc =>
    if endsWithDot w = true ∧ MIN_WORDS ≤ wc + 1 then
      (cur ++ [w]) :: chunkTokens ws [] 0
    else chunkTokens ws (cur ++ [w]) (wc + 1)

/-! ### Lemmas on whitespace splitting and joining -/

/-- A token produced by `pySplit`: non-empty and free of whitespace. -/
def goodTok (w : Str) : Prop := w ≠ [] ∧ ∀ c ∈ w, isSpace c = false

theorem isSpace_space : isSpace ' ' = true := rfl

theorem splitAux_append_space {c : Char} (hc : isSpace c = true) (b a : Str) :
    ∀ acc : Str, splitAux (a ++ c :: b) acc = splitAux a acc ++ splitAux b [] := by
  induction a with
  | nil =>
    intro acc
    cases acc <;> simp [splitAux, hc]
  | cons d a ih =>
    intro acc
    by_cases hd : isSpace d = true
    · cases acc <;> simp [splitAux, hd, ih]
    · simp [splitAux, hd, ih]

theorem splitAux_spaces : ∀ sp : Str, (∀ c ∈ sp, isSpace c = true) →
    ∀ acc, splitAux sp acc = splitAux [] acc
  | [], _, _ => rfl
  | d :: sp, hsp, acc => by
    have hd : isSpace d = true := hsp d (List.mem_cons_self _ _)
    have ih := splitAux_spaces sp (fun c hc => hsp c (List.mem_cons_of_mem _ hc))
    cases acc <;> simp [splitAux, hd, ih]

theorem splitAux_append_spaces (sp : Str) (hsp : ∀ c ∈ sp, isSpace c = true) :
    ∀ (x acc : Str), splitAux (x ++ sp) acc = splitAux x acc := by
  intro x
  induction x with
  | nil =>
    intro acc
    simpa using splitAux_spaces sp hsp acc
  | cons d x ih =>
    intro acc
    by_cases hd : isSpace d = true
    · cases acc <;> simp [splitAux, hd, ih]
    · simp [splitAux, hd, ih]

theorem splitAux_word : ∀ w : Str, (∀ c ∈ w, isSpace c = false) →
    ∀ (rest acc : Str), splitAux (w ++ rest) acc = splitAux rest (w.reverse ++ acc)
  | [], _, rest, acc => by simp
  | d :: w, hw, rest, acc => by
    have hd : isSpace d = false := hw d (List.mem_cons_self _ _)
    have ih := splitAux_word w (fun c hc => hw c (List.mem_cons_of_mem _ hc)) rest (d :: acc)
    simp [splitAux, hd, ih]

theorem splitAux_dropWhile (s : Str) :
    splitAux (s.dropWhile isSpace) [] = splitAux s [] := by
  induction s with
  | nil => rfl
  | cons c s ih =>
    by_cases hc : isSpace c = true
    · simp [List.dropWhile_cons, hc, splitAux, ih]
    · simp [List.dropWhile_cons, hc]

theorem pySplit_strip (s : Str) : pySplit (pyStrip s) = pySplit s := by
  show splitAux (pyStrip s) [] = splitAux s []
  have hdecomp : s.dropWhile isSpace =
      pyStrip s ++ ((s.dropWhile isSpace).reverse.takeWhile isSpace).reverse := by
    conv_lhs => rw [← (s.dropWhile isSpace).reverse_reverse,
      ← List.takeWhile_append_dropWhile isSpace (s.dropWhile isSpace).reverse]
    rw [List.reverse_append]
    rfl
  have hsp : ∀ c ∈ ((s.dropWhile isSpace).reverse.takeWhile isSpace).reverse,
      isSpace c = true := by
    intro c hc
    rw [List.mem_reverse] at hc
    exact List.mem_takeWhile_imp hc
  calc splitAux (pyStrip s) []
      = splitAux (pyStrip s ++ ((s.dropWhile isSpace).reverse.takeWhile isSpace).reverse) [] :=
        (splitAux_append_spaces _ hsp _ _).symm
    _ = splitAux (s.dropWhile isSpace) [] := by rw [← hdecomp]
    _ = splitAux s [] := splitAux_dropWhile s

theorem splitAux_good : ∀ (s acc : Str), (∀ c ∈ acc, isSpace c = false) →
    ∀ w ∈ splitAux s acc, goodTok w
  | [], acc, hacc, w, hw => by
    cases acc with
    | nil => simp [splitAux] at hw
    | cons d acc =>
      simp only [splitAux, List.mem_singleton] at hw
      subst hw
      refine ⟨by simp, ?_⟩
      intro c hc
      rw [List.mem_reverse] at hc
      exact hacc c hc
  | c :: cs, acc, hacc, w, hw => by
    by_cases hc : isSpace c = true
    · cases acc with
      | nil =>
        simp only [splitAux, hc, if_pos] at hw
        exact splitAux_good cs [] (by simp) w hw
      | cons d acc =>
        simp only [splitAux, hc, if_pos, List.mem_cons] at hw
        rcases hw with hw | hw
        · subst hw
          refine ⟨by simp, ?_⟩
          intro e he
          rw [List.mem_reverse] at he
          exact hacc e he
        · exact splitAux_good cs [] (by simp) w hw
    · simp only [splitAux, hc, if_neg, Bool.false_eq_true, not_false_iff] at hw
      refine splitAux_good cs (c :: acc) ?_ w hw
      intro e he
      rcases List.mem_cons.mp he with he | he
      · subst he
        simpa using hc
      · exact hacc e he

theorem pySplit_good (s : Str) : ∀ w ∈ pySplit s, goodTok w :=
  splitAux_good s [] (by simp)

theorem pySplit_single (w : Str) (hw : goodTok w) : pySplit w = [w] := by
  show splitAux w [] = [w]
  have h := splitAux_word w hw.2 [] []
  rw [List.append_nil] at h
  rw [h]
  cases hrev : w.reverse with
  | nil => exact absurd (List.reverse_eq_nil_iff.mp hrev) hw.1
  | cons c r =>
    simp only [splitAux, hrev]
    have hw2 := congrArg List.reverse hrev
    simp only [List.reverse_reverse] at hw2
    simp [← hw2]

theorem pySplit_joinSp_flat : ∀ l : List Str,
    pySplit (joinSp l) = (l.map pySplit).flatten
  | [] => rfl
  | [c] => by simp [joinSp]
  | c :: d :: l => by
    show pySplit (c ++ ' ' :: joinSp (d :: l)) = _
    show splitAux (c ++ ' ' :: joinSp (d :: l)) [] = _
    rw [splitAux_append_space isSpace_space (joinSp (d :: l)) c []]
    have ih := pySplit_joinSp_flat (d :: l)
    show pySplit c ++ pySplit (joinSp (d :: l)) = ((c :: d :: l).map pySplit).flatten
    rw [ih]
    simp

theorem pySplit_joinSp (ts : List Str) (h : ∀ w ∈ ts, goodTok w) :
    pySplit (joinSp ts) = ts := by
  induction ts with
  | nil => rfl
  | cons w ts ih =>
    have hw := h w (List.mem_cons_self _ _)
    have hts := fun x hx => h x (List.mem_cons_of_mem _ hx)
    cases ts with
    | nil => exact pySplit_single w hw
    | cons x ts' =>
      show pySplit (w ++ ' ' :: joinSp (x :: ts')) = _
      show splitAux (w ++ ' ' :: joinSp (x :: ts')) [] = _
      rw [splitAux_append_space isSpace_space (joinSp (x :: ts')) w []]
      have h1 : splitAux w [] = [w] := pySplit_single w hw
      rw [h1]
      have h2 : splitAux (joinSp (x :: ts')) [] = x :: ts' := ih hts
      rw [h2]
      rfl

/-! ### Lemmas on the chunking loop -/

theorem chunkLoop_eq_map : ∀ (ws cur : List Str) (wc : Nat),
    chunkLoop ws cur wc = (chunkTokens ws cur wc).map (fun c => pyStrip (joinSp c))
  | [], cur, wc => by
    by_cases h : cur.isEmpty = true <;> simp [chunkLoop, chunkTokens, h]
  | w :: ws, cur, wc => by
    by_cases h : endsWithDot w = true ∧ MIN_WORDS ≤ wc + 1
    · simp [chunkLoop, chunkTokens, h, chunkLoop_eq_map ws [] 0]
    · simp [chunkLoop, chunkTokens, h, chunkLoop_eq_map ws (cur ++ [w]) (wc + 1)]

theorem chunkTokens_flatten : ∀ (ws cur : List Str) (wc : Nat),
    (chunkTokens ws cur wc).flatten = cur ++ ws
  | [], cur, wc => by
    by_cases h : cur.isEmpty = true
    · simp [chunkTokens, h, List.isEmpty_iff.mp h]
    · simp [chunkTokens, h]
  | w :: ws, cur, wc => by
    by_cases h : endsWithDot w = true ∧ MIN_WORDS ≤ wc + 1
    · simp [chunkTokens, h, chunkTokens_flatten ws [] 0]
    · simp [chunkTokens, h, chunkTokens_flatten ws (cur ++ [w]) (wc + 1)]

theorem chunkTokens_mem_mem : ∀ (ws cur : List Str) (wc : Nat),
    ∀ c ∈ chunkTokens ws cur wc, ∀ w ∈ c, w ∈ cur ∨ w ∈ ws := by
  intro ws cur wc c hc w hw
  have hflat : w ∈ (chunkTokens ws cur wc).flatten := List.mem_flatten.mpr ⟨c, hc, hw⟩
  rw [chunkTokens_flatten] at hflat
  exact List.mem_append.mp hflat

theorem chunkTokens_ne_nil : ∀ (ws cur : List Str) (wc : Nat),
    ∀ c ∈ chunkTokens ws cur wc, c ≠ []
  | [], cur, wc, c, hc => by
    by_cases h : cur.isEmpty = true
    · simp [chunkTokens, h] at hc
    · simp only [chunkTokens] at hc
      rw [if_neg h, List.mem_singleton] at hc
      subst hc
      intro hnil
      exact h (by simp [hnil])
  | w :: ws, cur, wc, c, hc => by
    by_cases h : endsWithDot w = true ∧ MIN_WORDS ≤ wc + 1
    · simp only [chunkTokens] at hc
      rw [if_pos h] at hc
      rcases List.mem_cons.mp hc with hc | hc
      · subst hc
        simp
      · exact chunkTokens_ne_nil ws [] 0 c hc
    · simp only [chunkTokens] at hc
      rw [if_neg h] at hc
      exact chunkTokens_ne_nil ws (cur ++ [w]) (wc + 1) c hc

theorem chunkTokens_sealed : ∀ (ws cur : List Str) (wc : Nat), wc = cur.length →
    ∀ (i : Nat) (c : List Str), i + 1 < (chunkTokens ws cur wc).length →
    (chunkTokens ws cur wc)[i]? = some c →
    MIN_WORDS ≤ c.length ∧ ∃ w, c.getLast? = some w ∧ endsWithDot w = true
  | [], cur, wc, _, i, c, hlen, _ => by
    by_cases h : cur.isEmpty = true <;> simp [chunkTokens, h] at hlen
  | w :: ws, cur, wc, hwc, i, c, hlen, hget => by
    by_cases h : endsWithDot w = true ∧ MIN_WORDS ≤ wc + 1
    · simp only [chunkTokens] at hlen hget
      rw [if_pos h] at hlen hget
      cases i with
      | zero =>
        rw [List.getElem?_cons_zero] at hget
        cases hget
        refine ⟨by simpa [hwc] using h.2, w, ?_, h.1⟩
        simp
      | succ j =>
        rw [List.getElem?_cons_succ] at hget
        rw [List.length_cons] at hlen
        exact chunkTokens_sealed ws [] 0 rfl j c (by omega) hget
    · simp only [chunkTokens] at hlen hget
      rw [if_neg h] at hlen hget
      exact chunkTokens_sealed ws (cur ++ [w]) (wc + 1) (by simp [hwc]) i c hlen hget

/-! ### Lemmas on stripping -/

theorem head?_dropWhile_space : ∀ (l : Str) (x : Char),
    (l.dropWhile isSpace).head? = some x → isSpace x = false
  | [], x, h => by simp at h
  | c :: l, x, h => by
    by_cases hc : isSpace c = true
    · rw [List.dropWhile_cons, if_pos hc] at h
      exact head?_dropWhile_space l x h
    · rw [List.dropWhile_cons, if_neg hc] at h
      simp only [List.head?_cons, Option.some.injEq] at h
      subst h
      simpa using hc

theorem getLast?_dropWhile_space (l : Str) (h : l.dropWhile isSpace ≠ []) :
    (l.dropWhile isSpace).getLast? = l.getLast? := by
  have hsplit := congrArg List.getLast? (List.takeWhile_append_dropWhile isSpace l)
  rw [List.getLast?_append] at hsplit
  cases hd : (l.dropWhile isSpace).getLast? with
  | none => exact absurd (List.getLast?_eq_none_iff.mp hd) h
  | some y =>
    rw [hd] at hsplit
    simpa using hsplit

theorem pyStrip_head (s : Str) (x : Char) (h : (pyStrip s).head? = some x) :
    isSpace x = false := by
  unfold pyStrip at h
  rw [List.head?_reverse] at h
  have hne : (s.dropWhile isSpace).reverse.dropWhile isSpace ≠ [] := by
    intro h0
    rw [h0] at h
    simp at h
  rw [getLast?_dropWhile_space _ hne, List.getLast?_reverse] at h
  exact head?_dropWhile_space s x h

theorem pyStrip_last (s : Str) (x : Char) (h : (pyStrip s).getLast? = some x) :
    isSpace x = false := by
  unfold pyStrip at h
  rw [List.getLast?_reverse] at h
  exact head?_dropWhile_space _ x h

/-! ### Bridging chunk strings and their token lists -/

theorem chunkTokens_good (content : Str) :
    ∀ ci ∈ chunkTokens (pySplit content) [] 0, ∀ w ∈ ci, goodTok w := by
  intro ci hci w hw
  rcases chunkTokens_mem_mem (pySplit content) [] 0 ci hci w hw with h | h
  · simp at h
  · exact pySplit_good content w h

theorem chunk_content_tokens (content : Str) (i : Nat) (c : Str)
    (h : (chunk_content content)[i]? = some c) :
    ∃ ci, (chunkTokens (pySplit content) [] 0)[i]? = some ci ∧
      c = pyStrip (joinSp ci) ∧ pySplit c = ci := by
  unfold chunk_content at h
  rw [chunkLoop_eq_map, List.getElem?_map] at h
  cases hget : (chunkTokens (pySplit content) [] 0)[i]? with
  | none =>
    rw [hget] at h
    simp at h
  | some ci =>
    rw [hget] at h
    simp only [Option.map, Option.some.injEq] at h
    refine ⟨ci, rfl, h.symm, ?_⟩
    rw [← h, pySplit_strip]
    exact pySplit_joinSp ci
      (chunkTokens_good content ci (List.getElem?_mem hget))

theorem chunk_content_mem (content : Str) (c : Str) (h : c ∈ chunk_content content) :
    ∃ ci, ci ∈ chunkTokens (pySplit content) [] 0 ∧
      c = pyStrip (joinSp ci) ∧ pySplit c = ci ∧ ci ≠ [] := by
  unfold chunk_content at h
  rw [chunkLoop_eq_map] at h
  rcases List.mem_map.mp h with ⟨ci, hci, hc⟩
  refine ⟨ci, hci, hc.symm, ?_, chunkTokens_ne_nil (pySplit content) [] 0 ci hci⟩
  rw [← hc, pySplit_strip]
  exact pySplit_joinSp ci (chunkTokens_good content ci hci)

/-! ### Claims about the chunker -/

/-- C2: for every input string, re-splitting on whitespace the chunks of
`chunk_content`, rejoined in order with single spaces, yields exactly the
whitespace-token sequence of the original input — no token is dropped,
duplicated, or reordered. -/
theorem C2_chunker_preserves_token_sequence (content : Str) :
    pySplit (joinSp (chunk_content content)) = pySplit content := by
  rw [pySplit_joinSp_flat]
  unfold chunk_content
  rw [chunkLoop_eq_map, List.map_map]
  have hmap : ((chunkTokens (pySplit content) [] 0).map
      (pySplit ∘ fun c => pyStrip (joinSp c))) = chunkTokens (pySplit content) [] 0 := by
    rw [List.map_congr_left (g := id), List.map_id]
    intro ci hci
    show pySplit (pyStrip (joinSp ci)) = ci
    rw [pySplit_strip]
    exact pySplit_joinSp ci (chunkTokens_good content ci hci)
  rw [hmap, chunkTokens_flatten]
  rfl

/-- C3: every chunk returned by `chunk_content` except possibly the last
contains at least 100 whitespace-separated words, and its final word ends
with the character `.`; nothing is required of the final chunk. -/
theorem C3_nonfinal_chunks_sealed (content : Str) (i : Nat) (c : Str)
    (hlen : i + 1 < (chunk_content content).length)
    (hget : (chunk_content content)[i]? = some c) :
    100 ≤ (pySplit c).length ∧
      ∃ w, (pySplit c).getLast? = some w ∧ endsWithDot w = true := by
  obtain ⟨ci, hci, _, hsplit⟩ := chunk_content_tokens content i c hget
  have hlen' : i + 1 < (chunkTokens (pySplit content) [] 0).length := by
    unfold chunk_content at hlen
    rw [chunkLoop_eq_map, List.length_map] at hlen
    exact hlen
  have hsealed := chunkTokens_sealed (pySplit content) [] 0 rfl i ci hlen' hci
  rw [hsplit]
  exact hsealed

/-- C10: every chunk returned by `chunk_content` — for any input, including
empty or whitespace-only — is a non-empty string whose first and last
characters are not whitespace. -/
theorem C10_chunks_nonempty_stripped (content : Str) (c : Str)
    (h : c ∈ chunk_content content) :
    c ≠ [] ∧ (∀ x, c.head? = some x → isSpace x = false) ∧
      (∀ x, c.getLast? = some x → isSpace x = false) := by
  obtain ⟨ci, _, hc, hsplit, hne⟩ := chunk_content_mem content c h
  refine ⟨?_, ?_, ?_⟩
  · intro h0
    rw [h0] at hsplit
    exact hne hsplit.symm
  · intro x hx
    rw [hc] at hx
    exact pyStrip_head _ x hx
  · intro x hx
    rw [hc] at hx
    exact pyStrip_last _ x hx

/-! ### Spec-side model of the greedy chunk scan (for the refinement claim) -/

/-- Index of the chunk boundary, following the spec's words: scanning the
tokens left to right with `pos` tokens already in the current buffer, the
boundary is the FIRST token whose 1-based position in the buffer is at or
after the 100-word mark and whose last character is a dot; `none` when no
such token exists. -/
def specBoundary : Nat → List Str → Option Nat
  | _, [] => none
  | pos, w :: ws =>
    if endsWithDot w = true ∧ 100 ≤ pos + 1 then some 0
    else (specBoundary (pos + 1) ws).map (· + 1)

theorem specBoundary_lt : ∀ (p : Nat) (ts : List Str) (i : Nat),
    specBoundary p ts = some i → i < ts.length
  | _, [], _, h => by simp [specBoundary] at h
  | p, w :: ws, i, h => by
    by_cases hc : endsWithDot w = true ∧ 100 ≤ p + 1
    · simp only [specBoundary] at h
      rw [if_pos hc] at h
      cases h
      simp
    · simp only [specBoundary] at h
      rw [if_neg hc] at h
      cases hb : specBoundary (p + 1) ws with
      | none => rw [hb] at h; simp at h
      | some j =>
        rw [hb] at h
        simp only [Option.map, Option.some.injEq] at h
        have := specBoundary_lt (p + 1) ws j hb
        simp only [List.length_cons]
        omega

/-- Chunking as described by the spec's words: repeatedly place the boundary
at the first token at or after the 100-word mark that ends in a dot and cut
there; once no further boundary exists, the non-empty remaining buffer is
emitted as one final chunk regardless of its size or terminator. -/
def specChunks (ts : List Str) : List (List Str) :=
  match h : specBoundary 0 ts with
  | some i => ts.take (i + 1) :: specChunks (ts.drop (i + 1))
  | none => if ts.isEmpty then [] else [ts]
termination_by ts.length
decreasing_by
  have := specBoundary_lt 0 ts i h
  simp only [List.length_drop]
  omega

theorem chunkTokens_eq_specBoundary : ∀ (ts cur : List Str) (wc : Nat), wc = cur.length →
    chunkTokens ts cur wc =
      match specBoundary wc ts with
      | some i => (cur ++ ts.take (i + 1)) :: chunkTokens (ts.drop (i + 1)) [] 0
      | none => if (cur ++ ts).isEmpty then [] else [cur ++ ts]
  | [], cur, wc, _ => by
    simp [chunkTokens, specBoundary]
  | w :: ws, cur, wc, hwc => by
    by_cases hc : endsWithDot w = true ∧ 100 ≤ wc + 1
    · simp only [chunkTokens, MIN_WORDS, specBoundary]
      rw [if_pos hc, if_pos hc]
      simp
    · simp only [chunkTokens, MIN_WORDS, specBoundary]
      rw [if_neg hc, if_neg hc]
      rw [chunkTokens_eq_specBoundary ws (cur ++ [w]) (wc + 1) (by simp [hwc])]
      cases hb : specBoundary (wc + 1) ws with
      | none => simp
      | some j => simp

theorem chunkTokens_eq_specChunks (ts : List Str) :
    chunkTokens ts [] 0 = specChunks ts := by
  rw [chunkTokens_eq_specBoundary ts [] 0 rfl, specChunks]
  cases h : specBoundary 0 ts with
  | some i =>
    simp only [List.nil_append]
    rw [chunkTokens_eq_specChunks (ts.drop (i + 1))]
  | none => simp
termination_by ts.length
decreasing_by
  have := specBoundary_lt 0 ts i h
  simp only [List.length_drop]
  omega

/-- C4: `chunk_content` is exactly the greedy forward scan described by the
spec: each boundary is the FIRST token at or after the 100-word mark whose
last character is a dot (`specChunks`, modelled from the spec's words), and
after all tokens are consumed any non-empty remaining buffer becomes one
final chunk; each chunk is the buffer rejoined with single spaces and
stripped. -/
theorem C4_greedy_forward_scan (content : Str) :
    chunk_content content =
      (specChunks (pySplit content)).map (fun c => pyStrip (joinSp c)) := by
  unfold chunk_content
  rw [chunkLoop_eq_map, chunkTokens_eq_specChunks]

/-! ### Concrete documents for evaluating the theorems -/

/-- A 101-token document: one hundred copies of the token `a.` followed by a
final token `b`.  `chunk_content` splits it into a sealed 100-word chunk and
a one-word final chunk. -/
def sampleDoc : Str := joinSp (List.replicate 100 ['a', '.'] ++ [['b']])

theorem C3_nonfinal_chunks_sealed_witness :
    100 ≤ (pySplit ((chunk_content sampleDoc).headI)).length :=
  (C3_nonfinal_chunks_sealed sampleDoc 0 ((chunk_content sampleDoc).headI)
    (by decide) (by decide)).1

theorem C10_chunks_nonempty_stripped_witness : (['h', 'i'] : Str) ≠ [] :=
  (C10_chunks_nonempty_stripped ['h', 'i'] ['h', 'i'] (by decide)).1

/-! ### Enricher -/

/-- A structured response returned by one successful call to the external
reasoning service (`ask_llm` from `app.utils.llm_chat`, whose code is not
part of src).  The response is a dict whose `keywords` / `summary` keys may
be absent — the source reads them with `.get` and defaults. -/
structure LlmResponse where
  keywords : Option (List Str)
  summary : Option Str

/-- An element of the list built by `enrich_chunks_with_llm`: a Python dict
with keys `content`, `keywords`, `summary`.  Absent keys are `none` (the
persister reads `content` by indexing, which raises `KeyError`, and the
others with `.get` and a default). -/
structure Item where
  content : Option Str
  keywords : Option Str
  summary : Option Str
deriving DecidableEq

/-- Python's `",".join(keywords)`. -/
def joinComma : List Str → Str
  | [] => []
  | [k] => k
  | k :: ks => k ++ ',' :: joinComma ks

/-- The body of the `for i, chunk in enumerate(chunks, start=1)` loop of
`enrich_chunks_with_llm` (lines 119-140): `some r` models `ask_llm`
returning `r` for this chunk, `none` models the call raising, in which case
the chunk is kept with empty keywords and summary. -/
def enrichOne (chunk : Str) : Option LlmResponse → Item
  | some r =>
    { content := some chunk
      keywords := some (joinComma (r.keywords.getD []))
      summary := some (r.summary.getD []) }
  | none => { content := some chunk, keywords := some [], summary := some [] }

/-- The enumeration loop of `enrich_chunks_with_llm`: `oracle i` is the
outcome of the `ask_llm` call for chunk number `i` (1-based). -/
def enrichLoop (oracle : Nat → Option LlmResponse) : Nat → List Str → List Item
  | _, [] => []
  | i, chunk :: rest => enrichOne chunk (oracle i) :: enrichLoop oracle (i + 1) rest

/-- `enrich_chunks_with_llm` (lines 111-142 of the source), with the outcomes
of the external calls supplied by `oracle`. -/
def enrich_chunks_with_llm (oracle : Nat → Option LlmResponse) (chunks : List Str) :
    List Item :=
  enrichLoop oracle 1 chunks

theorem enrichLoop_length (oracle : Nat → Option LlmResponse) :
    ∀ (i0 : Nat) (chunks : List Str), (enrichLoop oracle i0 chunks).length = chunks.length
  | _, [] => rfl
  | i0, _ :: rest => by
    simp [enrichLoop, enrichLoop_length oracle (i0 + 1) rest]

theorem enrichLoop_get (oracle : Nat → Option LlmResponse) :
    ∀ (i0 : Nat) (chunks : List Str) (i : Nat) (it : Item),
      (enrichLoop oracle i0 chunks)[i]? = some it →
      it.content = chunks[i]? ∧
        (oracle (i0 + i) = none → it.keywords = some [] ∧ it.summary = some [])
  | _, [], i, it, h => by simp [enrichLoop] at h
  | i0, chunk :: rest, 0, it, h => by
    rw [enrichLoop, List.getElem?_cons_zero] at h
    cases h
    refine ⟨by rw [List.getElem?_cons_zero]; cases oracle i0 <;> rfl, ?_⟩
    intro hfail
    rw [Nat.add_zero] at hfail
    rw [hfail]
    exact ⟨rfl, rfl⟩
  | i0, chunk :: rest, j + 1, it, h => by
    rw [enrichLoop, List.getElem?_cons_succ] at h
    have := enrichLoop_get oracle (i0 + 1) rest j it h
    rw [List.getElem?_cons_succ]
    refine ⟨this.1, ?_⟩
    intro hfail
    refine this.2 ?_
    rw [← hfail]
    congr 1
    omega

/-- C1: for every chunk list and every pattern of enrichment outcomes, the
enricher returns one element per chunk, in order, with the `content` field
equal to the corresponding input chunk; a chunk whose call fails gets empty
`keywords` and `summary`, and no failure affects the other chunks. -/
theorem C1_enricher_isolation (oracle : Nat → Option LlmResponse) (chunks : List Str) :
    (enrich_chunks_with_llm oracle chunks).length = chunks.length ∧
      ∀ (i : Nat) (it : Item), (enrich_chunks_with_llm oracle chunks)[i]? = some it →
        it.content = chunks[i]? ∧
          (oracle (i + 1) = none → it.keywords = some [] ∧ it.summary = some []) := by
  refine ⟨enrichLoop_length oracle 1 chunks, ?_⟩
  intro i it h
  have := enrichLoop_get oracle 1 chunks i it h
  refine ⟨this.1, ?_⟩
  intro hfail
  refine this.2 ?_
  rw [← hfail]
  congr 1
  omega

theorem C1_enricher_isolation_witness :
    (enrich_chunks_with_llm (fun _ => none) [['h', 'i']]).length = 1 ∧
      ((enrich_chunks_with_llm (fun _ => none) [['h', 'i']])[0]?).map Item.content =
        some (some ['h', 'i']) := by
  have h := C1_enricher_isolation (fun _ => none) [['h', 'i']]
  refine ⟨h.1, ?_⟩
  have h0 := h.2 0 (enrichOne ['h', 'i'] none) rfl
  rw [show (enrich_chunks_with_llm (fun _ => none) [['h', 'i']])[0]? =
    some (enrichOne ['h', 'i'] none) from rfl]
  simp only [Option.map]
  rw [h0.1]
  rfl

/-- Modelled from the spec: a response of the reasoning service conforming to
the requested shape carries either no `keywords` key or exactly the three
requested keywords (section 6: response conforming to that shape or an
error; section 4.3: missing keys default to empty list/string). -/
def respConforms (r : LlmResponse) : Prop :=
  r.keywords = none ∨ ∃ a b c : Str, r.keywords = some [a, b, c]

/-- C9: whenever every successful reasoning-service response conforms to the
requested shape, every keywords field the enricher produces is a comma-joined
string of at most 3 terms (empty when the keywords key is missing). -/
theorem C9_keywords_at_most_three (oracle : Nat → Option LlmResponse) (chunks : List Str)
    (hconf : ∀ (i : Nat) (r : LlmResponse), oracle i = some r → respConforms r) :
    ∀ it ∈ enrich_chunks_with_llm oracle chunks,
      ∃ ks : List Str, ks.length ≤ 3 ∧ it.keywords = some (joinComma ks) := by
  unfold enrich_chunks_with_llm
  generalize 1 = i0
  induction chunks generalizing i0 with
  | nil =>
    intro it hit
    simp [enrichLoop] at hit
  | cons chunk rest ih =>
    intro it hit
    rw [enrichLoop] at hit
    rcases List.mem_cons.mp hit with hit | hit
    · subst hit
      cases hr : oracle i0 with
      | none => exact ⟨[], by simp, rfl⟩
      | some r =>
        rcases hconf i0 r hr with hk | ⟨a, b, c, hk⟩
        · exact ⟨[], by simp, by simp [enrichOne, hk]⟩
        · exact ⟨[a, b, c], by simp, by simp [enrichOne, hk]⟩
    · exact ih (i0 + 1) it hit

theorem C9_keywords_at_most_three_witness :
    ∃ ks : List Str, ks.length ≤ 3 ∧
      (enrichOne ['h', 'i'] (some ⟨some [['x'], ['y'], ['z']], none⟩)).keywords =
        some (joinComma ks) := by
  refine C9_keywords_at_most_three
    (fun _ => some ⟨some [['x'], ['y'], ['z']], none⟩) [['h', 'i']] ?_
    (enrichOne ['h', 'i'] (some ⟨some [['x'], ['y'], ['z']], none⟩)) ?_
  · intro i r hr
    cases hr
    exact Or.inr ⟨['x'], ['y'], ['z'], rfl⟩
  · show _ ∈ [enrichOne ['h', 'i'] (some ⟨some [['x'], ['y'], ['z']], none⟩)]
    simp

/-! ### Persister -/

/-- A `DocumentData` row as built by `store_chunks_in_db` (lines 153-164).
`chunk_id` is the value drawn from the uuid generator at build time. -/
structure Record where
  chunk_id : Nat
  document_name : Str
  role : Str
  chunk_number : Nat
  chunk_content : Str
  keywords : Str
  summary : Str
deriving DecidableEq

/-- A failure inside `store_chunks_in_db`: a `KeyError` while staging records
(an item without a `content` key) or a `SQLAlchemyError` on commit. -/
inductive DbError where
  | keyError
  | sqlError
deriving DecidableEq

/-- The `db_chunks` list comprehension of `store_chunks_in_db` (lines
153-164): one record per enriched chunk, `chunk_number := i + 1` from
`enumerate`, `chunk_id` from the uuid source; `item["content"]` raises
`KeyError` when the key is absent, `item.get` defaults to the empty string. -/
def buildRecords (uuid : Nat → Nat) (document_name role : Str) :
    Nat → List Item → Except DbError (List Record)
  | _, [] => .ok []
  | i, item :: rest =>
    match item.content with
    | none => .error .keyError
    | some c =>
      match buildRecords uuid document_name role (i + 1) rest with
      | .error e => .error e
      | .ok recs =>
        .ok ({ chunk_id := uuid i
               document_name := document_name
               role := role
               chunk_number := i + 1
               chunk_content := c
               keywords := item.keywords.getD []
               summary := item.summary.getD [] } :: recs)

/-- Modelled from the spec: the storage session handed out by
`app.database.SessionLocal` (outside src).  `staged` holds records added but
not yet committed, `store` the rows visible in the table, `closed` whether
the session was released. -/
structure Sess where
  staged : List Record
  store : List Record
  closed : Bool
deriving DecidableEq

/-- Modelled from the spec: `db.add_all` stages records without making them
visible. -/
def Sess.add_all (s : Sess) (recs : List Record) : Sess :=
  { s with staged := s.staged ++ recs }

/-- Modelled from the spec: `db.commit` makes all staged records visible at
once, or raises (`ok = false`) leaving the table untouched. -/
def Sess.commit (s : Sess) (ok : Bool) : Except DbError Sess :=
  if ok then .ok { s with store := s.store ++ s.staged, staged := [] }
  else .error .sqlError

/-- Modelled from the spec: `db.rollback` discards everything staged. -/
def Sess.rollback (s : Sess) : Sess := { s with staged := [] }

/-- Modelled from the spec: `db.close` releases the session. -/
def Sess.close (s : Sess) : Sess := { s with closed := true }

/-- `store_chunks_in_db` (lines 145-177 of the source): build the records,
stage them, commit once; on any failure roll back and re-raise; close the
session on every path (`finally`).  `commitOk` injects the commit outcome and
`store0` is the visible table at entry. -/
def store_chunks_in_db (uuid : Nat → Nat) (commitOk : Bool) (enriched_chunks : List Item)
    (document_name role : Str) (store0 : List Record) : Except DbError Unit × Sess :=
  let db : Sess := { staged := [], store := store0, closed := false }
  match buildRecords uuid document_name role 0 enriched_chunks with
  | .error e => (.error e, db.rollback.close)
  | .ok db_chunks =>
    let db := db.add_all db_chunks
    match db.commit commitOk with
    | .ok db2 => (.ok (), db2.close)
    | .error e => (.error e, db.rollback.close)

theorem buildRecords_length (uuid : Nat → Nat) (dn role : Str) :
    ∀ (j : Nat) (items : List Item) (recs : List Record),
      buildRecords uuid dn role j items = .ok recs → recs.length = items.length
  | _, [], recs, h => by
    cases h
    rfl
  | j, item :: rest, recs, h => by
    rw [buildRecords] at h
    cases hc : item.content with
    | none => rw [hc] at h; cases h
    | some c =>
      rw [hc] at h
      cases hb : buildRecords uuid dn role (j + 1) rest with
      | error e => rw [hb] at h; cases h
      | ok recs' =>
        rw [hb] at h
        cases h
        have := buildRecords_length uuid dn role (j + 1) rest recs' hb
        simp [this]

theorem buildRecords_get (uuid : Nat → Nat) (dn role : Str) :
    ∀ (j : Nat) (items : List Item) (recs : List Record),
      buildRecords uuid dn role j items = .ok recs →
      ∀ (i : Nat) (rec : Record), recs[i]? = some rec →
        rec.chunk_number = j + i + 1 ∧
          ∃ it, items[i]? = some it ∧ it.content = some rec.chunk_content
  | _, [], recs, h, i, rec, hget => by
    cases h
    simp at hget
  | j, item :: rest, recs, h, i, rec, hget => by
    rw [buildRecords] at h
    cases hc : item.content with
    | none => rw [hc] at h; cases h
    | some c =>
      rw [hc] at h
      cases hb : buildRecords uuid dn role (j + 1) rest with
      | error e => rw [hb] at h; cases h
      | ok recs' =>
        rw [hb] at h
        cases h
        cases i with
        | zero =>
          rw [List.getElem?_cons_zero] at hget
          cases hget
          exact ⟨rfl, item, by simp, hc⟩
        | succ k =>
          rw [List.getElem?_cons_succ] at hget
          have := buildRecords_get uuid dn role (j + 1) rest recs' hb k rec hget
          rw [List.getElem?_cons_succ]
          exact ⟨by omega, this.2⟩

/-- C8: the records built by `store_chunks_in_db` are in the order of the
supplied enriched-chunk list, one per element, and the i-th record's
`chunk_number` is exactly its 1-based position `i` — contiguous, starting at
1, and independent of anything the chunks carried before. -/
theorem C8_chunk_numbers_positional (uuid : Nat → Nat) (dn role : Str)
    (items : List Item) (recs : List Record)
    (h : buildRecords uuid dn role 0 items = .ok recs) :
    recs.length = items.length ∧
      ∀ (i : Nat) (rec : Record), recs[i]? = some rec →
        rec.chunk_number = i + 1 ∧
          ∃ it, items[i]? = some it ∧ it.content = some rec.chunk_content := by
  refine ⟨buildRecords_length uuid dn role 0 items recs h, ?_⟩
  intro i rec hget
  have := buildRecords_get uuid dn role 0 items recs h i rec hget
  exact ⟨by omega, this.2⟩

/-- A two-element enriched list with all keys present, for concrete runs. -/
def sampleItems : List Item :=
  [ { content := some ['h', 'i'], keywords := some ['k'], summary := some ['s'] },
    { content := some ['y', 'o'], keywords := none, summary := none } ]

theorem C8_chunk_numbers_positional_witness :
    ({ chunk_id := 1, document_name := [], role := [], chunk_number := 2,
       chunk_content := ['y', 'o'], keywords := [], summary := [] } : Record).chunk_number =
      1 + 1 :=
  ((C8_chunk_numbers_positional (fun n => n) [] [] sampleItems
      [ { chunk_id := 0, document_name := [], role := [], chunk_number := 1,
          chunk_content := ['h', 'i'], keywords := ['k'], summary := ['s'] },
        { chunk_id := 1, document_name := [], role := [], chunk_number := 2,
          chunk_content := ['y', 'o'], keywords := [], summary := [] } ] rfl).2 1 _ rfl).1

/-- C5: all-or-nothing persistence.  If anything fails while staging or
committing, the error is re-raised to the caller and the table is exactly as
before (zero records visible); on success all records — one per enriched
chunk — are appended.  In both cases the session is closed. -/
theorem C5_store_atomicity (uuid : Nat → Nat) (commitOk : Bool) (items : List Item)
    (dn role : Str) (store0 : List Record) :
    (∀ e : DbError, (store_chunks_in_db uuid commitOk items dn role store0).1 = .error e →
        (store_chunks_in_db uuid commitOk items dn role store0).2.store = store0) ∧
      ((store_chunks_in_db uuid commitOk items dn role store0).1 = .ok () →
        ∃ recs : List Record, buildRecords uuid dn role 0 items = .ok recs ∧
          recs.length = items.length ∧
          (store_chunks_in_db uuid commitOk items dn role store0).2.store = store0 ++ recs) ∧
      (store_chunks_in_db uuid commitOk items dn role store0).2.closed = true := by
  unfold store_chunks_in_db
  cases hb : buildRecords uuid dn role 0 items with
  | error e =>
    refine ⟨fun _ _ => rfl, ?_, rfl⟩
    intro h
    cases h
  | ok db_chunks =>
    cases commitOk with
    | false =>
      refine ⟨fun _ _ => rfl, ?_, rfl⟩
      intro h
      simp [Sess.add_all, Sess.commit] at h
    | true =>
      refine ⟨?_, ?_, rfl⟩
      · intro e he
        simp [Sess.add_all, Sess.commit] at he
      · intro _
        exact ⟨db_chunks, rfl, buildRecords_length uuid dn role 0 items db_chunks hb, rfl⟩

theorem C5_store_atomicity_witness :
    (store_chunks_in_db (fun n => n) false sampleItems [] [] []).2.store =
      ([] : List Record) :=
  (C5_store_atomicity (fun n => n) false sampleItems [] [] []).1 .sqlError rfl

/-! ### Pipeline orchestrator -/

/-- The input message: a dict whose keys may be absent.  `message["k"]`
raises `KeyError` on an absent key; `message.get` returns the default. -/
structure Message where
  file_path : Option Str
  original_name : Option Str
  role_required : Option Str

/-- A failure of `read_file_content`: the file is missing, reading fails, or
`PyPDF2` cannot parse the bytes. -/
inductive ReadErr where
  | fileNotFound
  | readError
  | parseError
deriving DecidableEq

/-- The external world of one `process_document` invocation: the outcome of
the file read and PDF extraction, the outcome of each `ask_llm` call, the
uuid source, the commit outcome, and the table contents at entry. -/
structure Env where
  readResult : Except ReadErr Str
  oracle : Nat → Option LlmResponse
  uuid : Nat → Nat
  commitOk : Bool
  store0 : List Record

/-- What one `process_document` run did: how many file reads, enrichment
calls and storage attempts happened, the final visible table, and the role
value in use after validation. -/
structure Trace where
  fileReads : Nat
  enrichCalls : Nat
  storeCalls : Nat
  store : List Record
  roleUsed : Option Str
deriving DecidableEq

/-- `read_file_content` (lines 63-84 of the source): the read and the PDF
parse are external; the function forwards their outcome and re-raises every
failure. -/
def read_file_content (env : Env) : Except ReadErr Str := env.readResult

/-- `process_document` (lines 18-60 of the source).  Every failure is caught:
a missing key, a read failure, zero chunks, and a storage failure each end
the run with a plain `return` after logging, so the result is `.ok ()` on
every path. -/
def process_document (env : Env) (message : Message) : Except DbError Unit × Trace :=
  match message.file_path, message.original_name with
  | none, _ =>
    (.ok (), { fileReads := 0, enrichCalls := 0, storeCalls := 0
               store := env.store0, roleUsed := none })
  | some _, none =>
    (.ok (), { fileReads := 0, enrichCalls := 0, storeCalls := 0
               store := env.store0, roleUsed := none })
  | some _, some original_name =>
    let role := message.role_required.getD ("Analyst".toList)
    match read_file_content env with
    | .error _ =>
      (.ok (), { fileReads := 1, enrichCalls := 0, storeCalls := 0
                 store := env.store0, roleUsed := some role })
    | .ok content =>
      let chunks := chunk_content content
      if chunks.isEmpty then
        (.ok (), { fileReads := 1, enrichCalls := 0, storeCalls := 0
                   store := env.store0, roleUsed := some role })
      else
        let enriched := enrich_chunks_with_llm env.oracle chunks
        match store_chunks_in_db env.uuid env.commitOk enriched original_name role
            env.store0 with
        | (.ok _, s) =>
          (.ok (), { fileReads := 1, enrichCalls := chunks.length, storeCalls := 1
                     store := s.store, roleUsed := some role })
        | (.error _, s) =>
          (.ok (), { fileReads := 1, enrichCalls := chunks.length, storeCalls := 1
                     store := s.store, roleUsed := some role })

/-- An environment whose document yields two chunks and whose commit fails. -/
def failingStoreEnv : Env :=
  { readResult := .ok sampleDoc
    oracle := fun _ => none
    uuid := fun n => n
    commitOk := false
    store0 := [] }

/-- A complete message. -/
def fullMsg : Message :=
  { file_path := some ['p'], original_name := some ['d'], role_required := none }

/-- C6 counterexample: with a two-chunk document and a failing commit, the
storage layer raises — `store_chunks_in_db` returns the re-raised
`SQLAlchemyError` — yet `process_document` catches it and returns normally,
so no failure kind, storage included, propagates to the invoker.  This
refutes the claim that storage failures propagate out of `process_document`. -/
theorem C6_storage_failure_does_not_propagate :
    (store_chunks_in_db failingStoreEnv.uuid failingStoreEnv.commitOk
        (enrich_chunks_with_llm failingStoreEnv.oracle (chunk_content sampleDoc))
        ['d'] ("Analyst".toList) failingStoreEnv.store0).1 = .error .sqlError ∧
      (process_document failingStoreEnv fullMsg).2.storeCalls = 1 ∧
      (process_document failingStoreEnv fullMsg).1 = .ok () := by
  refine ⟨rfl, ?_, ?_⟩ <;> rfl

/-- C6 amended: no failure kind propagates out of `process_document`:
validation, read, enrichment and also storage failures are all caught and
logged, and the pipeline returns normally on every input and environment. -/
theorem C6_no_failure_propagates (env : Env) (message : Message) :
    (process_document env message).1 = .ok () := by
  obtain ⟨fp, onm, rr⟩ := message
  obtain ⟨rres, oracle, uuid, commitOk, store0⟩ := env
  cases fp with
  | none => rfl
  | some fp =>
    cases onm with
    | none => rfl
    | some nm =>
      cases rres with
      | error e => rfl
      | ok content =>
        unfold process_document read_file_content
        dsimp only
        split
        · rfl
        · split <;> rfl

/-- C7: a message missing `file_path` or `original_name` makes
`process_document` return without raising and with no file read, no
enrichment call, and no storage write; when both keys are present and
`role_required` is absent, the role in use defaults to `"Analyst"`. -/
theorem C7_validation_short_circuit (env : Env) (message : Message) :
    ((message.file_path = none ∨ message.original_name = none) →
        (process_document env message).1 = .ok () ∧
        (process_document env message).2 =
          { fileReads := 0, enrichCalls := 0, storeCalls := 0
            store := env.store0, roleUsed := none }) ∧
      (message.file_path ≠ none → message.original_name ≠ none →
        message.role_required = none →
        (process_document env message).2.roleUsed = some ("Analyst".toList)) := by
  obtain ⟨fp, onm, rr⟩ := message
  constructor
  · intro hmiss
    cases fp with
    | none => exact ⟨rfl, rfl⟩
    | some fp' =>
      cases onm with
      | none => exact ⟨rfl, rfl⟩
      | some nm =>
        rcases hmiss with h | h <;> exact Option.noConfusion h
  · intro hfp honm hrole
    obtain ⟨rres, oracle, uuid, commitOk, store0⟩ := env
    cases fp with
    | none => exact absurd rfl hfp
    | some fp' =>
      cases onm with
      | none => exact absurd rfl honm
      | some nm =>
        cases hrole
        cases rres with
        | error e => rfl
        | ok content =>
          unfold process_document read_file_content
          dsimp only
          split
          · rfl
          · split <;> rfl

theorem C7_validation_short_circuit_witness :
    (process_document failingStoreEnv
        { file_path := none, original_name := some ['d'], role_required := none }).2 =
      { fileReads := 0, enrichCalls := 0, storeCalls := 0
        store := [], roleUsed := none } ∧
    (process_document failingStoreEnv fullMsg).2.roleUsed = some ("Analyst".toList) := by
  constructor
  · exact (C7_validation_short_circuit failingStoreEnv
      { file_path := none, original_name := some ['d'], role_required := none }).1
      (Or.inl rfl) |>.2
  · exact (C7_validation_short_circuit failingStoreEnv fullMsg).2
      (by intro h; cases h) (by intro h; cases h) rfl

end MessageProcessor
